import Mathlib

/-!
# Verification of the hyperion_assert tokenizer, highlighter, decomposer and panic core

This development shallowly embeds the weight-bearing parts of the
`hyperion_assert` C++ library and proves (or refutes) the specified
properties about them.

Embedded components and their sources:

* token model                  — `include/hyperion/assert/tokens.h`
* punctuation / keyword tables — `include/hyperion/assert/detail/parser.h`
* lexer and classifier         — `src/assert/detail/parser.cpp` (`lex`, `parse`)
* highlighter                  — `src/assert/highlight.cpp` (`highlight`)
* expression decomposer        — `include/hyperion/assert/detail/decomposer.h`
* panic handler state          — `src/assert/panic.cpp`
* assertion labels             — `include/hyperion/assert.h`
* `Color` accessors            — `include/hyperion/assert/highlight.h`

Strings are modelled as `List Char`; byte offsets as `Nat`.
-/

namespace HyperionAssert

/-! ## Token model (`tokens.h`)

`tokens::Identifier = variant<Namespace, Type, Function, Variable>` and
`tokens::Kind = variant<Identifier, Keyword, String, Numeric, Punctuation, Error>`.
-/

inductive IdentKind where
  | nspaceK
  | typeK
  | funcK
  | varK
deriving DecidableEq, Repr

inductive Kind where
  | ident (k : IdentKind)
  | keywordK
  | strK
  | numK
  | punctK
  | errK
deriving DecidableEq, Repr

/-- A lexed token: `text` (view into the source), byte offsets `tbegin`/`tend`,
and the classified kind.  Mirrors `tokens::Token`. -/
structure Token where
  text : List Char
  tbegin : Nat
  tend : Nat
  kind : Kind
deriving DecidableEq, Repr

/-! ## Fixed punctuation and keyword tables (`detail/parser.h`, lines 41–134) -/

/-- The 48-entry fixed punctuation table `parser::punctuation`
(transcribed in source order). -/
def punctuation : List (List Char) :=
  ["~".data, "!".data, "+".data, "-".data, "*".data, "/".data, "%".data, "^".data,
   "&".data, "|".data, "=".data, "+=".data,
   "-=".data, "*=".data, "/=".data, "%=".data, "^=".data, "&=".data, "|=".data,
   "==".data, "!=".data, "<".data, ">".data, "<=".data,
   ">=".data, "<=>".data, "&&".data, "||".data, "<<".data, ">>".data, "<<=".data,
   ">>=".data, "++".data, "--".data, "?".data, "::".data,
   ":".data, "...".data, ".".data, ".*".data, "->".data, "->*".data, "[".data,
   "]".data, "\x7b".data, "\x7d".data, "(".data, ")".data]

/-- The 88-entry fixed keyword table `parser::keywords`
(transcribed in source order). -/
def keywords : List (List Char) :=
  ["alignas".data, "constinit".data, "public".data, "alignof".data,
   "const_cast".data, "float".data, "register".data, "try".data,
   "asm".data, "continue".data, "for".data, "reinterpret_cast".data,
   "typedef".data, "auto".data, "co_await".data, "friend".data,
   "requires".data, "typeid".data, "bool".data, "co_return".data,
   "goto".data, "return".data, "typename".data, "break".data,
   "co_yield".data, "if".data, "short".data, "union".data,
   "case".data, "decltype".data, "inline".data, "signed".data,
   "unsigned".data, "catch".data, "default".data, "int".data,
   "sizeof".data, "using".data, "char".data, "delete".data,
   "long".data, "static".data, "virtual".data, "char8_t".data,
   "do".data, "mutable".data, "static_assert".data, "void".data,
   "char16_t".data, "double".data, "namespace".data, "static_cast".data,
   "volatile".data, "char32_t".data, "dynamic_cast".data, "new".data,
   "struct".data, "wchar_t".data, "class".data, "else".data,
   "noexcept".data, "switch".data, "while".data, "concept".data,
   "enum".data, "template".data, "const".data, "explicit".data,
   "this".data, "consteval".data, "export".data, "private".data,
   "thread_local".data, "constexpr".data, "extern".data, "protected".data,
   "throw".data, "and".data, "or".data, "xor".data,
   "not".data, "bitand".data, "bitor".data, "compl".data,
   "and_eq".data, "or_eq".data, "xor_eq".data, "not_eq".data]

/-! ## Lexer (`parser.cpp`, `lex`, lines 48–169)

The C++ splits the input on whitespace (the split predicate at line 70),
then for each word either emits a single token (whole-word punctuation or
keyword match) or partitions the word into maximal punctuation and
non-punctuation runs.  The C++ emits all punctuation runs of a word, then
all other runs, then sorts every token by `begin`; since the runs of a word
tile it with strictly increasing, disjoint offsets this is the same list as
emitting the runs of each word left to right, which is what the embedding
does.  The C++ recovers each word's offset with `string.find(word,
search_start)`; as `search_start` is the end of the previous word and all
bytes between are whitespace (while a word starts with a non-whitespace
byte), `find` returns exactly the word's position, so the embedding tracks
offsets directly.  The run-splitting functions are written with explicit
fuel (the remaining length bounds the recursion) so that everything reduces
by `decide`.
-/

/-- The whitespace predicate used by the split at line 70 of `parser.cpp`. -/
def isWhitespaceC (c : Char) : Bool :=
  c == ' ' || c == '\n' || c == '\r' || c == '\t' || c == '\x0b'

/-- `is_punctuation` (line 54): a character is punctuation when the
one-character string made of it appears in the punctuation table. -/
def isPunctuationChar (c : Char) : Bool :=
  punctuation.contains [c]

/-- Classification of a non-punctuation run (lines 122–148): string if it is
wrapped in double quotes, numeric if all-digit, leading-`0`, `true` or
`false`, keyword if in the table, else a provisional `Namespace`
identifier. -/
def runKind (run : List Char) : Kind :=
  let isStr := run.head? == some '"' && run.getLast? == some '"'
  let isNum := run.all (fun c => '0' ≤ c && c ≤ '9') || run.head? == some '0'
      || run == "true".data || run == "false".data
  let isKw := keywords.contains run
  if isStr then .strK
  else if isNum then .numK
  else if isKw then .keywordK
  else .ident .nspaceK

/-- Token for one maximal run of a word: punctuation runs become
`Punctuation` tokens (lines 98–110), other runs are classified by
`runKind` (lines 114–149). -/
def mkRunToken (p : Bool) (run : List Char) (i : Nat) : Token :=
  ⟨run, i, i + run.length, if p then .punctK else runKind run⟩

/-- Splits a word into its maximal punctuation / non-punctuation runs,
left to right, emitting one token per run.  `fuel` bounds the recursion by
the word length. -/
def runsFromFuel : Nat → List Char → Nat → List Token
  | 0, _, _ => []
  | _, [], _ => []
  | fuel + 1, c :: rest, i =>
    let p := isPunctuationChar c
    let run := c :: rest.takeWhile (fun x => isPunctuationChar x == p)
    let rest' := rest.dropWhile (fun x => isPunctuationChar x == p)
    mkRunToken p run i :: runsFromFuel fuel rest' (i + run.length)

def runsFrom (w : List Char) (i : Nat) : List Token :=
  runsFromFuel w.length w i

/-- Tokens of one whitespace-delimited word at offset `i`: a whole-word
punctuation match (line 83), a whole-word keyword match (line 89), or the
run split (lines 95–150). -/
def wordTokens (w : List Char) (i : Nat) : List Token :=
  if punctuation.contains w then [⟨w, i, i + w.length, .punctK⟩]
  else if keywords.contains w then [⟨w, i, i + w.length, .keywordK⟩]
  else runsFrom w i

/-- Splits the input into its maximal non-whitespace words together with
their byte offsets.  `fuel` bounds the recursion by the input length. -/
def wordsFromFuel : Nat → List Char → Nat → List (Nat × List Char)
  | 0, _, _ => []
  | _, [], _ => []
  | fuel + 1, c :: rest, i =>
    if isWhitespaceC c then wordsFromFuel fuel rest (i + 1)
    else
      let run := c :: rest.takeWhile (fun x => !isWhitespaceC x)
      let rest' := rest.dropWhile (fun x => !isWhitespaceC x)
      (i, run) :: wordsFromFuel fuel rest' (i + run.length)

def wordsFrom (s : List Char) (i : Nat) : List (Nat × List Char) :=
  wordsFromFuel s.length s i

/-- `parser::lex` (lines 48–169): tokenize each word, in position order. -/
def lex (s : List Char) : List Token :=
  ((wordsFrom s 0).map (fun iw => wordTokens iw.2 iw.1)).flatten

/-! ## Classifier (`parser.cpp`, `parse`, lines 174–314)

The second pass walks the lexed tokens with cursors to the previous and
previous-previous token; it may rewrite the current token's kind and the
previous token's kind.  The embedding keeps a zipper: the already-retired
tokens (in reverse), the previous-previous token, the previous token, and
the unprocessed rest.  Updates to the previous token are threaded into the
next step's previous-previous slot, exactly as the C++ cursors observe the
mutated vector.  `stepKinds` returns the (possibly rewritten) kind of the
current token and, when a previous token exists, its (possibly rewritten)
kind. -/

def startsWithL (p s : List Char) : Bool :=
  s.take p.length == p

def stepKinds (pp p : Option Token) (t : Token) : Kind × Option Kind :=
  -- lines 185–187: the literal text `operator` always becomes a `Function`
  if t.text == "operator".data then (.ident .funcK, p.map (·.kind))
  else
    match t.kind with
    | .ident _ =>
      match p with
      -- lines 252–256: no previous token: provisional `Namespace`
      | none => (.ident .nspaceK, none)
      | some pv =>
        match pv.kind with
        -- lines 197–207: previous is a keyword
        | .keywordK =>
          if pv.text == "namespace".data then (.ident .nspaceK, some pv.kind)
          else if pv.text == "auto".data then (.ident .varK, some pv.kind)
          else (.ident .typeK, some pv.kind)
        -- lines 213–235: previous is punctuation
        | .punctK =>
          if pv.text == "::(".data then (.ident .typeK, some pv.kind)
          else if startsWithL "::".data pv.text then (.ident .nspaceK, some pv.kind)
          else
            match pp with
            | some ppv =>
              if ppv.kind == .keywordK || pv.text.head? == some '(' then
                (.ident .typeK, some pv.kind)
              else (.ident .varK, some pv.kind)
            -- no previous-previous token: the C++ leaves the kind unchanged
            | none => (t.kind, some pv.kind)
        -- lines 240–250: previous is neither keyword nor punctuation
        | .ident _ => (.ident .varK, some (Kind.ident .typeK))
        | _ => (.ident .varK, some pv.kind)
    | .punctK =>
      match p with
      | none => (t.kind, none)
      | some pv =>
        -- lines 263–265: previous literal `operator` becomes a `Function`
        if pv.text == "operator".data then (t.kind, some (Kind.ident .funcK))
        else
          match pv.kind with
          | .ident ik =>
            -- line 269: `first::second` makes `first` a `Namespace`
            if startsWithL "::".data t.text then (t.kind, some (Kind.ident .nspaceK))
            -- line 277: brace-init directly against the name makes it a `Type`
            else if startsWithL "\x7b".data t.text && t.tbegin == pv.tend then
              (t.kind, some (Kind.ident .typeK))
            -- lines 282–289: template-head heuristic
            else if t.text == "<".data
                || (startsWithL ">".data t.text
                    && (t.text != ">>".data || ik != .varK)) then
              (t.kind, some (Kind.ident .typeK))
            -- line 295: identifier before an opening paren is a `Function`
            else if t.text.head? == some '(' then (t.kind, some (Kind.ident .funcK))
            -- lines 301–306: anything else not before `=`, `(`, brace or `::`
            else if t.text != "=".data && t.text.head? != some '('
                && t.text.head? != some '\x7b'
                && !startsWithL "::".data t.text then
              (t.kind, some (Kind.ident .varK))
            else (t.kind, some pv.kind)
          | _ => (t.kind, some pv.kind)
    | _ => (t.kind, p.map (·.kind))

def optCons : Option Token → List Token → List Token
  | none, l => l
  | some t, l => t :: l

/-- Applies the classifier's rewrite of the previous token's kind, when one
was produced. -/
def updKind : Option Token → Option Kind → Option Token
  | some pv, some pk => some { pv with kind := pk }
  | x, _ => x

def phase2Go (done : List Token) (pp p : Option Token) : List Token → List Token
  | [] => (optCons p (optCons pp done)).reverse
  | t :: ts =>
    let k := stepKinds pp p t
    phase2Go (optCons pp done) (updKind p k.2) (some { t with kind := k.1 }) ts

/-- `parser::parse` (lines 174–314): lex, then run the classifier pass. -/
def parse (s : List Char) : List Token :=
  phase2Go [] none none (lex s)

/-! ## Highlighter (`highlight.cpp`, `highlight`, lines 218–265)

`highlight` parses the input, builds a format string consisting of the
inter-token gaps and one `\x7b\x7d` placeholder per token (the loop at
lines 228–235, which deliberately appends nothing after the final token),
then substitutes each token's source slice `str.substr(begin, end - begin)`
wrapped in a color style.  `highlightUnstyled` is the unstyled content of
that output: the styling wrapper contributes only escape sequences around
each token's slice, so stripping the styling leaves exactly the gaps and
slices concatenated in order.  When the token list is empty the C++ returns
the input unchanged (line 221). -/

def hlGo (s : List Char) : List Token → Nat → List Char
  | [], _ => []
  | t :: ts, lastIndex =>
    ((s.take t.tbegin).drop lastIndex) ++ ((s.take t.tend).drop t.tbegin)
      ++ hlGo s ts t.tend

def highlightUnstyled (s : List Char) : List Char :=
  let tokens := parse s
  if tokens.isEmpty then s
  else hlGo s tokens 0

/-! ## Expression decomposer (`detail/decomposer.h`)

The capture chain `ExpressionDecomposer{}->*lhs op rhs op2 rhs2 ...` builds a
left-nested spine of `BinaryExpression`s: `->*` binds tighter than every
captured binary operator, and each overload
(`HYPERION_DEFINE_INITIAL_EXPRESSION_OPERATOR`, lines 392–400, and
`HYPERION_DEFINE_BINARY_EXPRESSION_OPERATOR`, lines 299–307) wraps the
existing expression as the new `lhs` and the next fully evaluated operand as
`rhs`.  Because each operand of the chain is an ordinary C++ subexpression
handed to the overloaded operator as an argument, it is evaluated with
ordinary C++ semantics (including `&&`/`||` short-circuiting inside the
operand) *before* capture, while the overloaded `&&`/`||` of the chain
itself lose short-circuiting: both sides are always evaluated.

The value domain models C++ `std::uint32_t` (all arithmetic is mod `2^32`,
which is the defined C++ behavior for unsigned types) and `bool`.  Division
or remainder by zero and shifts by 32 or more are undefined behavior in C++
and are modelled as `none`. -/

def u32Mod : Nat := 4294967296

inductive Val where
  | intV (n : Nat)
  | boolV (b : Bool)
deriving DecidableEq, Repr

inductive Op where
  | add | sub | mul | div | rem | shl | shr | band | bor | bxor
  | ltO | leO | gtO | geO | eqO | neO | landO | lorO | commaO
deriving DecidableEq, Repr

/-- The semantics of one captured operator applied to two values, mirroring
`Operator<op>::do_op` (decomposer.h lines 122–204): the built-in operator is
applied directly.  Ill-typed combinations (which would not compile in C++)
and undefined behavior yield `none`. -/
def opApply : Op → Val → Val → Option Val
  | .add, .intV a, .intV b => some (.intV ((a + b) % u32Mod))
  | .sub, .intV a, .intV b =>
      some (.intV ((a % u32Mod + (u32Mod - b % u32Mod)) % u32Mod))
  | .mul, .intV a, .intV b => some (.intV ((a * b) % u32Mod))
  | .div, .intV a, .intV b =>
      if b % u32Mod = 0 then none else some (.intV ((a % u32Mod) / (b % u32Mod)))
  | .rem, .intV a, .intV b =>
      if b % u32Mod = 0 then none else some (.intV ((a % u32Mod) % (b % u32Mod)))
  | .shl, .intV a, .intV b =>
      if 32 ≤ b % u32Mod then none
      else some (.intV ((a <<< (b % u32Mod)) % u32Mod))
  | .shr, .intV a, .intV b =>
      if 32 ≤ b % u32Mod then none
      else some (.intV ((a % u32Mod) >>> (b % u32Mod)))
  | .band, .intV a, .intV b => some (.intV ((a % u32Mod) &&& (b % u32Mod)))
  | .bor, .intV a, .intV b => some (.intV ((a % u32Mod) ||| (b % u32Mod)))
  | .bxor, .intV a, .intV b => some (.intV ((a % u32Mod) ^^^ (b % u32Mod)))
  | .ltO, .intV a, .intV b => some (.boolV (decide (a % u32Mod < b % u32Mod)))
  | .leO, .intV a, .intV b => some (.boolV (decide (a % u32Mod ≤ b % u32Mod)))
  | .gtO, .intV a, .intV b => some (.boolV (decide (b % u32Mod < a % u32Mod)))
  | .geO, .intV a, .intV b => some (.boolV (decide (b % u32Mod ≤ a % u32Mod)))
  | .eqO, .intV a, .intV b => some (.boolV (decide (a % u32Mod = b % u32Mod)))
  | .eqO, .boolV a, .boolV b => some (.boolV (a == b))
  | .neO, .intV a, .intV b => some (.boolV (!decide (a % u32Mod = b % u32Mod)))
  | .neO, .boolV a, .boolV b => some (.boolV (!(a == b)))
  | .landO, .boolV a, .boolV b => some (.boolV (a && b))
  | .lorO, .boolV a, .boolV b => some (.boolV (a || b))
  | .commaO, _, v => some v
  | _, _, _ => none

/-- An expression over operands and the captured binary operators. -/
inductive Expr where
  | leaf (v : Val)
  | node (op : Op) (l r : Expr)
deriving DecidableEq, Repr

/-- Ordinary C++ evaluation of an expression *without* capture: the built-in
`&&` and `||` short-circuit; everything else evaluates both operands and
applies the operator. -/
def evalExpr : Expr → Option Val
  | .leaf v => some v
  | .node .landO l r =>
    match evalExpr l with
    | some (.boolV false) => some (.boolV false)
    | some (.boolV true) =>
      match evalExpr r with
      | some (.boolV b) => some (.boolV b)
      | _ => none
    | _ => none
  | .node .lorO l r =>
    match evalExpr l with
    | some (.boolV true) => some (.boolV true)
    | some (.boolV false) =>
      match evalExpr r with
      | some (.boolV b) => some (.boolV b)
      | _ => none
    | _ => none
  | .node op l r =>
    match evalExpr l, evalExpr r with
    | some vl, some vr => opApply op vl vr
    | _, _ => none

/-- Evaluation in which every operand is evaluated (no short-circuiting
anywhere): this is exactly the evaluation work the capture chain performs,
since each operand is an argument of an overloaded operator. -/
def evalAllOperands : Expr → Option Val
  | .leaf v => some v
  | .node op l r =>
    match evalAllOperands l, evalAllOperands r with
    | some vl, some vr => opApply op vl vr
    | _, _ => none

/-- The spine the operator overloads build: `InitialExpression` wraps the
leftmost operand (decomposer.h lines 365–390); each further operator
produces `BinaryExpression{previous, evaluated rhs operand}`. -/
inductive Chain where
  | initial (v : Val)
  | bin (lhs : Chain) (op : Op) (rhs : Val)
deriving DecidableEq, Repr

/-- Builds the capture chain for an expression: the spine follows the path
from the root to the leftmost operand, and every right operand is evaluated
by ordinary C++ semantics when it is passed to the overloaded operator. -/
def decompose : Expr → Option Chain
  | .leaf v => some (.initial v)
  | .node op l r =>
    match decompose l, evalExpr r with
    | some cl, some vr => some (.bin cl op vr)
    | _, _ => none

/-- `BinaryExpression::do_op` (decomposer.h lines 254–266): when the lhs is
itself a `BinaryExpression`, the left operand handed to the operator is that
nested expression's own `do_op()` result. -/
def chainDoOp : Chain → Option Val
  | .initial v => some v
  | .bin l op r =>
    match chainDoOp l with
    | some vl => opApply op vl r
    | none => none

/-- The evaluated result of the decomposition of `e`
(`BinaryExpression::expr`, line 291–296, forwards to `do_op`). -/
def chainResult (e : Expr) : Option Val :=
  match decompose e with
  | some c => chainDoOp c
  | none => none

/-! ## Mixed-signedness comparison (`Operator<"<">::do_op`, C6)

`HYPERION_DEFINE_OPERATOR_TYPE(<)` (decomposer.h lines 122–140, 152)
returns `lhs < rhs` with the language's built-in semantics.  For
`lhs : std::int32_t` and `rhs : std::uint32_t` the usual arithmetic
conversions convert both operands to `std::uint32_t` before comparing.
There is no `less_than_compare` (or any other named comparison primitive)
anywhere in the repository. -/

def toU32 (n : Int) : Nat := (n % (4294967296 : Int)).toNat

def lt_do_op_i32_u32 (lhs : Int) (rhs : Nat) : Bool :=
  decide (toU32 lhs < rhs % 4294967296)

/-! ## Decomposition rendering (C7)

An operand of a rendered expression is formattable (with or without a
string-view conversion, which controls quoting), stream-serializable, or
neither.  `formatUnary` mirrors `fmt::formatter<UnaryExpression>::format`
(decomposer.h lines 480–496); `formatBinaryLeafRaw` mirrors the `formatted`
lambda of `fmt::formatter<BinaryExpression>::format` for a leaf binary
expression (lines 573–696), before the final highlight pass. -/

inductive Operand where
  | fmtAble (isStr : Bool) (rendered : List Char)
  | streamAble (rendered : List Char)
  | notFmtAble
deriving DecidableEq, Repr

def notFormattableText : List Char := "(NotFormattable)".data

def formatUnary : Operand → List Char
  | .fmtAble _ r => highlightUnstyled r
  | .streamAble r => highlightUnstyled r
  | .notFmtAble => highlightUnstyled notFormattableText

def quoteIf (isStr : Bool) (r : List Char) : List Char :=
  if isStr then '"' :: r ++ ['"'] else r

def formatBinaryLeafRaw (l r : Operand) (op : List Char) : List Char :=
  match l, r with
  | .fmtAble ls lr, .fmtAble rs rr => quoteIf ls lr ++ ' ' :: op ++ ' ' :: quoteIf rs rr
  | .fmtAble ls lr, .streamAble rr => quoteIf ls lr ++ ' ' :: op ++ ' ' :: rr
  | .fmtAble ls lr, .notFmtAble => quoteIf ls lr ++ ' ' :: op ++ ' ' :: notFormattableText
  | .streamAble lr, .fmtAble rs rr => lr ++ ' ' :: op ++ ' ' :: quoteIf rs rr
  | .notFmtAble, .fmtAble rs rr =>
      notFormattableText ++ ' ' :: op ++ ' ' :: quoteIf rs rr
  | .streamAble lr, .streamAble rr => lr ++ ' ' :: op ++ ' ' :: rr
  | .streamAble lr, .notFmtAble => lr ++ ' ' :: op ++ ' ' :: notFormattableText
  | .notFmtAble, .streamAble rr => notFormattableText ++ ' ' :: op ++ ' ' :: rr
  | .notFmtAble, .notFmtAble =>
      notFormattableText ++ ' ' :: op ++ ' ' :: notFormattableText

/-- `sub` occurs contiguously inside `s`. -/
def containsSub (sub s : List Char) : Prop := ∃ a b, s = a ++ sub ++ b

/-! ## Panic handler state (`panic.cpp`, lines 141–157)

The handler is a single atomic function pointer, initialized to the default
handler.  Handlers are modelled by their address; the null pointer is
`none`.  `set_handler` stores its argument unconditionally — the source has
no null check. -/

structure PanicState where
  handler : Option Nat
deriving DecidableEq, Repr

def defaultHandlerAddr : Nat := 0

def initialPanicState : PanicState := ⟨some defaultHandlerAddr⟩

def set_handler (h : Option Nat) (_s : PanicState) : PanicState := ⟨h⟩

def get_handler (s : PanicState) : Option Nat := s.handler

/-! ## Assertion labels (`assert.h`)

The label string the surface macro layer hands to
`create_assertion_message`.  The precondition label (line 415) is spelled
`Violaton` in the source; the postcondition label (line 495) is spelled
`Violation`. -/

def preconditionAssertLabel : List Char := "Contract Violaton:\nPre-condition".data

def postconditionAssertLabel : List Char :=
  "Contract Violation:\nPost-condition".data

/-! ## `Color` (`highlight.h`, lines 76–292) -/

structure RgbColor where
  red : Nat
  green : Nat
  blue : Nat
deriving DecidableEq, Repr

/-- `RgbColor(hex)` (highlight.h lines 82–86). -/
def RgbColor.ofHex (hex : Nat) : RgbColor :=
  ⟨(hex >>> 16) &&& 255, (hex >>> 8) &&& 255, hex &&& 255⟩

inductive ColorStorage where
  | rgb (c : RgbColor)
  | term (t : Nat)
deriving DecidableEq, Repr

/-- `Color`: a flag `m_is_term` plus a union of an `RgbColor` and a terminal
palette enumerator (modelled by `Nat`). -/
structure Color where
  m_is_term : Bool
  m_value : ColorStorage
deriving DecidableEq, Repr

/-- `Color(RgbColor)` (line 154): `m_is_term` keeps its default `false`. -/
def Color.fromRgb (c : RgbColor) : Color := ⟨false, .rgb c⟩

/-- `Color(fmt::terminal_color)` (lines 160–162): sets `m_is_term`. -/
def Color.fromTerm (t : Nat) : Color := ⟨true, .term t⟩

/-- Union read of the rgb member (only performed under the matching flag). -/
def ColorStorage.rgbUnchecked : ColorStorage → RgbColor
  | .rgb c => c
  | .term _ => ⟨255, 255, 255⟩

/-- Union read of the terminal member (only performed under the matching
flag). -/
def ColorStorage.termUnchecked : ColorStorage → Nat
  | .term t => t
  | .rgb _ => 0

/-- `is_term_color` (lines 176–178): returns `m_is_term`. -/
def Color.is_term_color (c : Color) : Bool := c.m_is_term

/-- `is_rgb_color` (lines 199–201): the source also returns `m_is_term`. -/
def Color.is_rgb_color (c : Color) : Bool := c.m_is_term

/-- `term_color` (lines 186–193). -/
def Color.term_color (c : Color) : Option Nat :=
  if c.m_is_term then some c.m_value.termUnchecked else none

/-- `rgb_color` (lines 208–214). -/
def Color.rgb_color (c : Color) : Option RgbColor :=
  if c.m_is_term then none else some c.m_value.rgbUnchecked

/-! ## The punctuation list required by the spec (C5) -/

/-- The spec's "fixed punctuation set (must include at minimum)" list,
transcribed from the spec's words — 49 entries ending in `";"`. -/
def specPunctuationList : List (List Char) :=
  ["~".data, "!".data, "+".data, "-".data, "*".data, "/".data, "%".data, "^".data,
   "&".data, "|".data, "=".data, "+=".data, "-=".data, "*=".data, "/=".data,
   "%=".data, "^=".data, "&=".data, "|=".data, "==".data, "!=".data, "<".data,
   ">".data, "<=".data, ">=".data, "<=>".data, "&&".data, "||".data, "<<".data,
   ">>".data, "<<=".data, ">>=".data, "++".data, "--".data, "?".data, "::".data,
   ":".data, "...".data, ".".data, ".*".data, "->".data, "->*".data, "[".data,
   "]".data, "\x7b".data, "\x7d".data, "(".data, ")".data, ";".data]

/-! The classifier pass only rewrites token kinds: text and offsets are
untouched, so the tokenization invariant survives it. -/

def stripPos (t : Token) : List Char × Nat × Nat :=
  (t.text, t.tbegin, t.tend)

def optStrip : Option Token → List (List Char × Nat × Nat)
  | none => []
  | some t => [stripPos t]

/-- The range-membership test used to state "covered by exactly one token". -/
def inRangeB (k : Nat) (t : Token) : Bool :=
  decide (t.tbegin ≤ k ∧ k < t.tend)

/-! ## Tokenization invariants

`Tokenizes i s ts` states that the token list `ts` tiles the string `s`
(which begins at absolute offset `i`): tokens appear in position order,
separated only by whitespace gaps, each token records its own offsets, and
nothing but whitespace is left uncovered. -/

inductive Tokenizes : Nat → List Char → List Token → Prop where
  | nil (i : Nat) (s : List Char) (hws : ∀ c ∈ s, isWhitespaceC c = true) :
      Tokenizes i s []
  | cons (i : Nat) (gap : List Char) (t : Token) (rest : List Char) (ts : List Token)
      (hgap : ∀ c ∈ gap, isWhitespaceC c = true)
      (hne : t.text ≠ [])
      (hb : t.tbegin = i + gap.length)
      (he : t.tend = t.tbegin + t.text.length)
      (htail : Tokenizes t.tend rest ts) :
      Tokenizes i (gap ++ t.text ++ rest) (t :: ts)

/-- `TokExact i s ts`: the tokens tile `s` exactly, with no gaps at all. -/
inductive TokExact : Nat → List Char → List Token → Prop where
  | nil (i : Nat) : TokExact i [] []
  | cons (i : Nat) (t : Token) (rest : List Char) (ts : List Token)
      (hne : t.text ≠ []) (hb : t.tbegin = i) (he : t.tend = i + t.text.length)
      (htail : TokExact t.tend rest ts) :
      TokExact i (t.text ++ rest) (t :: ts)

lemma length_dropWhile_le (p : Char → Bool) (l : List Char) :
    (l.dropWhile p).length ≤ l.length := by
  induction l with
  | nil => simp
  | cons a l ih =>
    rw [List.dropWhile_cons]
    split
    · simp; omega
    · simp

lemma tokExact_runsFromFuel :
    ∀ (fuel : Nat) (w : List Char) (i : Nat), w.length ≤ fuel →
      TokExact i w (runsFromFuel fuel w i) := by
  intro fuel
  induction fuel with
  | zero =>
    intro w i hw
    have : w = [] := List.length_eq_zero.mp (Nat.le_zero.mp hw)
    subst this
    exact TokExact.nil i
  | succ fuel ih =>
    intro w i hw
    match w with
    | [] => exact TokExact.nil i
    | c :: rest =>
      have hsplit :
          c :: rest
            = (c :: rest.takeWhile (fun x => isPunctuationChar x == isPunctuationChar c))
              ++ rest.dropWhile (fun x => isPunctuationChar x == isPunctuationChar c) := by
        simp [List.takeWhile_append_dropWhile]
      simp only [runsFromFuel]
      rw [hsplit]
      have hlen :
          (rest.dropWhile (fun x => isPunctuationChar x == isPunctuationChar c)).length
            ≤ fuel := by
        have h1 := length_dropWhile_le
          (fun x => isPunctuationChar x == isPunctuationChar c) rest
        simp only [List.length_cons] at hw
        omega
      exact TokExact.cons i
        (mkRunToken (isPunctuationChar c)
          (c :: rest.takeWhile (fun x => isPunctuationChar x == isPunctuationChar c)) i)
        _ _ (by simp [mkRunToken]) rfl rfl (ih _ _ hlen)

lemma tokExact_wordTokens (w : List Char) (i : Nat) (hw : w ≠ []) :
    TokExact i w (wordTokens w i) := by
  unfold wordTokens
  split
  · have h := TokExact.cons i ⟨w, i, i + w.length, .punctK⟩ [] [] hw rfl (by simp)
      (TokExact.nil _)
    simpa using h
  · split
    · have h := TokExact.cons i ⟨w, i, i + w.length, .keywordK⟩ [] [] hw rfl (by simp)
        (TokExact.nil _)
      simpa using h
    · exact tokExact_runsFromFuel w.length w i le_rfl

lemma tokenizes_ws_cons {c : Char} {i : Nat} {s : List Char} {ts : List Token}
    (hc : isWhitespaceC c = true) (h : Tokenizes (i + 1) s ts) :
    Tokenizes i (c :: s) ts := by
  cases h with
  | nil _ _ hws =>
    refine Tokenizes.nil i _ ?_
    intro c' hc'
    rcases List.mem_cons.mp hc' with rfl | hmem
    · exact hc
    · exact hws c' hmem
  | cons _ gap t rest ts hgap hne hb he htail =>
    have : c :: (gap ++ t.text ++ rest) = (c :: gap) ++ t.text ++ rest := by simp
    rw [this]
    refine Tokenizes.cons i (c :: gap) t rest ts ?_ hne (by simp [hb]; omega) he htail
    intro c' hc'
    rcases List.mem_cons.mp hc' with rfl | hmem
    · exact hc
    · exact hgap c' hmem

lemma tokExact_append_tokenizes {i : Nat} {w : List Char} {G : List Token}
    {rest : List Char} {TS : List Token}
    (hex : TokExact i w G) (h : Tokenizes (i + w.length) rest TS) :
    Tokenizes i (w ++ rest) (G ++ TS) := by
  induction hex with
  | nil j => simpa using h
  | cons j t w' ts hne hb he htail ih =>
    have harr : (t.text ++ w') ++ rest = ([] : List Char) ++ t.text ++ (w' ++ rest) := by
      simp
    rw [harr]
    refine Tokenizes.cons j [] t (w' ++ rest) (ts ++ TS) (by simp) hne (by simp [hb])
      (by rw [hb]; exact he) ?_
    apply ih
    have : t.tend + w'.length = j + (t.text ++ w').length := by
      simp [he, hb, List.length_append]; omega
    rw [this]
    exact h

lemma tokenizes_wordsFromFuel :
    ∀ (fuel : Nat) (s : List Char) (i : Nat), s.length ≤ fuel →
      Tokenizes i s
        (((wordsFromFuel fuel s i).map (fun iw => wordTokens iw.2 iw.1)).flatten) := by
  intro fuel
  induction fuel with
  | zero =>
    intro s i hs
    have : s = [] := List.length_eq_zero.mp (Nat.le_zero.mp hs)
    subst this
    exact Tokenizes.nil i [] (by simp)
  | succ fuel ih =>
    intro s i hs
    match s with
    | [] => exact Tokenizes.nil i [] (by simp)
    | c :: rest =>
      rw [wordsFromFuel]
      by_cases hc : isWhitespaceC c = true
      · simp only [hc, if_true]
        exact tokenizes_ws_cons hc
          (ih rest (i + 1) (by simp only [List.length_cons] at hs; omega))
      · simp only [hc, if_false, Bool.false_eq_true]
        have hsplit :
            c :: rest
              = (c :: rest.takeWhile (fun x => !isWhitespaceC x))
                ++ rest.dropWhile (fun x => !isWhitespaceC x) := by
          simp [List.takeWhile_append_dropWhile]
        rw [List.map_cons, List.flatten_cons, hsplit]
        refine tokExact_append_tokenizes
          (tokExact_wordTokens _ i (by simp)) ?_
        have hlen : (rest.dropWhile (fun x => !isWhitespaceC x)).length ≤ fuel := by
          have h1 := length_dropWhile_le (fun x => !isWhitespaceC x) rest
          simp only [List.length_cons] at hs
          omega
        simpa using ih _ (i + (c :: rest.takeWhile (fun x => !isWhitespaceC x)).length) hlen

lemma tokenizes_lex (s : List Char) : Tokenizes 0 s (lex s) :=
  tokenizes_wordsFromFuel s.length s 0 le_rfl

lemma reverse_map_optCons (o : Option Token) (l : List Token) :
    ((optCons o l).map stripPos).reverse = ((l.map stripPos).reverse) ++ optStrip o := by
  cases o <;> simp [optCons, optStrip]

lemma optStrip_updKind (o : Option Token) (k : Option Kind) :
    optStrip (updKind o k) = optStrip o := by
  cases o <;> cases k <;> simp [updKind, optStrip, stripPos]

lemma phase2Go_strip :
    ∀ (rest done : List Token) (pp p : Option Token),
      (phase2Go done pp p rest).map stripPos
        = ((optCons p (optCons pp done)).reverse).map stripPos ++ rest.map stripPos := by
  intro rest
  induction rest with
  | nil => intro done pp p; simp [phase2Go]
  | cons t ts ih =>
    intro done pp p
    rw [phase2Go, ih]
    simp only [List.map_reverse, reverse_map_optCons, optStrip_updKind]
    simp [optStrip, stripPos, List.append_assoc]

lemma parse_strip (s : List Char) :
    (parse s).map stripPos = (lex s).map stripPos := by
  have h := phase2Go_strip (lex s) [] none none
  simpa [parse, optCons] using h

lemma tokenizes_congr :
    ∀ {i : Nat} {s : List Char} {ts ts' : List Token},
      ts.map stripPos = ts'.map stripPos → Tokenizes i s ts → Tokenizes i s ts' := by
  intro i s ts ts' hmap h
  induction h generalizing ts' with
  | nil j s hws =>
    have : ts' = [] := by
      cases ts' with
      | nil => rfl
      | cons a l => simp at hmap
    subst this
    exact Tokenizes.nil j s hws
  | cons j gap t rest ts hgap hne hb he htail ih =>
    cases ts' with
    | nil => simp at hmap
    | cons t' ts₂ =>
      simp only [List.map_cons, List.cons.injEq] at hmap
      obtain ⟨hstrip, htl⟩ := hmap
      have htext : t.text = t'.text := by
        have := congrArg Prod.fst hstrip
        simpa [stripPos] using this
      have htb : t.tbegin = t'.tbegin := by
        have := congrArg (fun x => x.2.1) hstrip
        simpa [stripPos] using this
      have hte : t.tend = t'.tend := by
        have := congrArg (fun x => x.2.2) hstrip
        simpa [stripPos] using this
      rw [htext]
      refine Tokenizes.cons j gap t' rest ts₂ hgap (htext ▸ hne)
        (htb ▸ hb) (by rw [← htb, ← hte, ← htext]; exact he) ?_
      rw [← hte]
      exact ih htl

lemma tokenizes_parse (s : List Char) : Tokenizes 0 s (parse s) :=
  tokenizes_congr (parse_strip s).symm (tokenizes_lex s)

/-! Facts derived from the tokenization invariant. -/

lemma tok_facts {i : Nat} {s : List Char} {ts : List Token} (h : Tokenizes i s ts) :
    List.Pairwise (fun a b => a.tend ≤ b.tbegin) ts
    ∧ ∀ t ∈ ts, i ≤ t.tbegin ∧ t.tbegin < t.tend ∧ t.tend ≤ i + s.length
        ∧ t.tend = t.tbegin + t.text.length
        ∧ ∃ pre post, s = pre ++ t.text ++ post ∧ i + pre.length = t.tbegin := by
  induction h with
  | nil => simp
  | cons j gap t rest ts hgap hne hb he htail ih =>
    obtain ⟨ihpw, ihmem⟩ := ih
    have htlen : 0 < t.text.length := List.length_pos.mpr hne
    constructor
    · rw [List.pairwise_cons]
      exact ⟨fun b hb' => (ihmem b hb').1, ihpw⟩
    · intro t' ht'
      rcases List.mem_cons.mp ht' with rfl | hmem
      · refine ⟨by omega, by omega, ?_, he, gap, rest, rfl, hb.symm⟩
        simp only [List.length_append]
        omega
      · obtain ⟨h1, h2, h3, h4, pre', post', hdec, hpre⟩ := ihmem t' hmem
        refine ⟨by omega, h2, ?_, h4, gap ++ t.text ++ pre', post', ?_, ?_⟩
        · simp only [List.length_append]
          omega
        · rw [hdec]
          simp [List.append_assoc]
        · simp only [List.length_append]
          omega

lemma getD_mem (l : List Char) (k : Nat) (d : Char) (hk : k < l.length) :
    l.getD k d ∈ l := by
  induction l generalizing k with
  | nil => simp at hk
  | cons a t ih =>
    cases k with
    | zero => simp
    | succ k =>
      rw [List.getD_cons_succ]
      exact List.mem_cons_of_mem a (ih k (by simpa using hk))

lemma getD_append_left (l l' : List Char) (k : Nat) (d : Char) (hk : k < l.length) :
    (l ++ l').getD k d = l.getD k d := by
  induction l generalizing k with
  | nil => simp at hk
  | cons a t ih =>
    cases k with
    | zero => simp
    | succ k =>
      simp only [List.cons_append, List.getD_cons_succ]
      exact ih k (by simpa using hk)

lemma getD_append_shift (l l' : List Char) (k : Nat) (d : Char) :
    (l ++ l').getD (l.length + k) d = l'.getD k d := by
  induction l with
  | nil => simp
  | cons a t ih =>
    have h : (a :: t).length + k = (t.length + k) + 1 := by simp; omega
    rw [h, List.cons_append, List.getD_cons_succ, ih]

lemma tok_cover {i : Nat} {s : List Char} {ts : List Token} (h : Tokenizes i s ts) :
    ∀ k, k < s.length → isWhitespaceC (s.getD k ' ') = false →
      ∃ t ∈ ts, t.tbegin ≤ i + k ∧ i + k < t.tend := by
  induction h with
  | nil j s hws =>
    intro k hk hnws
    exact absurd (hws _ (getD_mem s k ' ' hk)) (by rw [hnws]; simp)
  | cons j gap t rest ts hgap hne hb he htail ih =>
    intro k hk hnws
    have htlen : 0 < t.text.length := List.length_pos.mpr hne
    by_cases h1 : k < gap.length
    · exfalso
      have hassoc : gap ++ t.text ++ rest = gap ++ (t.text ++ rest) := by
        simp [List.append_assoc]
      rw [hassoc, getD_append_left gap _ k ' ' h1] at hnws
      exact absurd (hgap _ (getD_mem gap k ' ' h1)) (by rw [hnws]; simp)
    · by_cases h2 : k < gap.length + t.text.length
      · exact ⟨t, List.mem_cons_self t ts, by omega, by omega⟩
      · obtain ⟨k', rfl⟩ : ∃ k', k = gap.length + t.text.length + k' :=
          ⟨k - (gap.length + t.text.length), by omega⟩
        have hk' : k' < rest.length := by
          simp only [List.length_append] at hk
          omega
        have hidx : gap.length + t.text.length + k' = (gap ++ t.text).length + k' := by
          simp [List.length_append]
        rw [hidx, getD_append_shift (gap ++ t.text) rest k' ' '] at hnws
        obtain ⟨t', ht'mem, hlo, hhi⟩ := ih k' hk' hnws
        exact ⟨t', List.mem_cons_of_mem t ht'mem, by omega, by omega⟩

lemma cover_unique :
    ∀ (ts : List Token) (k : Nat),
      List.Pairwise (fun a b => a.tend ≤ b.tbegin) ts →
      (∃ t ∈ ts, t.tbegin ≤ k ∧ k < t.tend) →
      ts.countP (inRangeB k) = 1 := by
  intro ts
  induction ts with
  | nil =>
    intro k _ hex
    simp at hex
  | cons t ts ih =>
    intro k hpw hex
    rw [List.pairwise_cons] at hpw
    obtain ⟨hhead, hpw'⟩ := hpw
    rw [List.countP_cons]
    by_cases hcov : t.tbegin ≤ k ∧ k < t.tend
    · have hz : ts.countP (inRangeB k) = 0 := by
        rw [List.countP_eq_zero]
        intro b hbmem hb
        have h1 := hhead b hbmem
        have h2 : b.tbegin ≤ k ∧ k < b.tend := by simpa [inRangeB] using hb
        omega
      simp [hz, inRangeB, hcov]
    · obtain ⟨t', ht', hc⟩ := hex
      rcases List.mem_cons.mp ht' with rfl | hmem
      · exact absurd hc hcov
      · rw [ih k hpw' ⟨t', hmem, hc⟩]
        simp [inRangeB, hcov]

lemma pairwise_strict (ts : List Token)
    (hpw : List.Pairwise (fun a b => a.tend ≤ b.tbegin) ts)
    (hlt : ∀ t ∈ ts, t.tbegin < t.tend) :
    List.Pairwise (fun a b => a.tbegin < b.tbegin) ts := by
  induction ts with
  | nil => simp
  | cons t ts ih =>
    rw [List.pairwise_cons] at hpw ⊢
    refine ⟨?_, ih hpw.2 (fun b hb => hlt b (List.mem_cons_of_mem t hb))⟩
    intro b hb
    have h1 := hpw.1 b hb
    have h2 := hlt t (List.mem_cons_self t ts)
    omega

lemma take_len_append (mid post : List Char) : (mid ++ post).take mid.length = mid := by
  induction mid with
  | nil => simp
  | cons c cs ih => simp [ih]

lemma take_drop_middle (pre mid post : List Char) :
    ((pre ++ (mid ++ post)).take (pre.length + mid.length)).drop pre.length = mid := by
  induction pre with
  | nil => simp [take_len_append]
  | cons c cs ih =>
    have h : (c :: cs).length + mid.length = (cs.length + mid.length) + 1 := by
      simp
      omega
    rw [h]
    simpa using ih

/-- Every parsed token's text is exactly the corresponding slice of the
input. -/
lemma parse_text_slice {s : List Char} {t : Token} (ht : t ∈ parse s) :
    t.text = (s.take t.tend).drop t.tbegin := by
  obtain ⟨-, hmem⟩ := tok_facts (tokenizes_parse s)
  obtain ⟨h1, h2, h3, h4, pre, post, hdec, hpre⟩ := hmem t ht
  simp only [Nat.zero_add] at hpre
  have hassoc : s = pre ++ (t.text ++ post) := by rw [hdec]; simp [List.append_assoc]
  rw [hassoc, ← hpre, h4, hpre, ← hpre]
  exact (take_drop_middle pre t.text post).symm

lemma slice_glue (s : List Char) {a b c : Nat} (hab : a ≤ b) (hbc : b ≤ c)
    (hcs : c ≤ s.length) :
    (s.take b).drop a ++ (s.take c).drop b = (s.take c).drop a := by
  have h1 : (s.take c).take b = s.take b := by
    rw [List.take_take]
    simp [Nat.min_eq_left hbc]
  have hlen : ((s.take c).take b).length = b := by
    rw [h1, List.length_take]
    omega
  calc (s.take b).drop a ++ (s.take c).drop b
      = ((s.take c).take b).drop a ++ (s.take c).drop b := by rw [h1]
    _ = ((s.take c).take b ++ (s.take c).drop b).drop a := by
        rw [List.drop_append_of_le_length (by omega : a ≤ ((s.take c).take b).length)]
    _ = (s.take c).drop a := by rw [List.take_append_drop]

lemma hlGo_last (s : List Char) :
    ∀ (ts : List Token) (t0 : Token) (li : Nat) (tl : Token),
      List.Pairwise (fun a b => a.tend ≤ b.tbegin) (t0 :: ts) →
      (∀ t ∈ t0 :: ts, t.tbegin < t.tend ∧ t.tend ≤ s.length) →
      li ≤ t0.tbegin →
      (t0 :: ts).getLast? = some tl →
      hlGo s (t0 :: ts) li = (s.take tl.tend).drop li := by
  intro ts
  induction ts with
  | nil =>
    intro t0 li tl hpw hmem hli hlast
    have htl : tl = t0 := by simpa using hlast.symm
    subst htl
    obtain ⟨hlt, hle⟩ := hmem tl (by simp)
    simp only [hlGo, List.append_nil]
    exact slice_glue s hli (le_of_lt hlt) hle
  | cons t1 ts ih =>
    intro t0 li tl hpw hmem hli hlast
    have hlast' : (t1 :: ts).getLast? = some tl := by
      simpa using hlast
    rw [List.pairwise_cons] at hpw
    obtain ⟨hhead, hpw'⟩ := hpw
    have h01 : t0.tend ≤ t1.tbegin := hhead t1 (by simp)
    have ihh := ih t1 t0.tend tl hpw'
      (fun t ht => hmem t (List.mem_cons_of_mem _ ht)) h01 hlast'
    obtain ⟨hlt0, hle0⟩ := hmem t0 (by simp)
    have htl_mem : tl ∈ t1 :: ts := List.mem_of_mem_getLast? hlast'
    have h0tl : t0.tend ≤ tl.tbegin := hhead tl htl_mem
    obtain ⟨hlttl, hletl⟩ := hmem tl (List.mem_cons_of_mem _ htl_mem)
    rw [hlGo]
    rw [ihh, List.append_assoc,
      slice_glue s (le_of_lt hlt0) (by omega) hletl,
      slice_glue s hli (by omega) hletl]

/-! ## Claim theorems for the parser and highlighter -/

/-- C2: For every input string `S`, the tokens of `parse S` are sorted by
strictly ascending `begin` with `tᵢ.end ≤ tᵢ₊₁.begin` for adjacent tokens,
every token's text equals `S[begin..end)`, every non-whitespace byte of `S`
is covered by exactly one token's `[begin, end)` range, and empty input
yields an empty list. -/
theorem c2_parse_token_invariants :
    ∀ s : List Char,
      List.Chain' (fun a b => a.tend ≤ b.tbegin) (parse s)
      ∧ List.Chain' (fun a b => a.tbegin < b.tbegin) (parse s)
      ∧ (∀ t ∈ parse s, t.text = (s.take t.tend).drop t.tbegin)
      ∧ (∀ k, k < s.length → isWhitespaceC (s.getD k ' ') = false →
          (parse s).countP (inRangeB k) = 1)
      ∧ parse ([] : List Char) = [] := by
  intro s
  obtain ⟨hpw, hmem⟩ := tok_facts (tokenizes_parse s)
  refine ⟨hpw.chain',
    (pairwise_strict _ hpw (fun t ht => (hmem t ht).2.1)).chain',
    fun t ht => parse_text_slice ht, ?_, rfl⟩
  intro k hk hnws
  apply cover_unique _ _ hpw
  have h := tok_cover (tokenizes_parse s) k hk hnws
  simpa using h

/-- Witness for C2 at the concrete input `"ab"`. -/
theorem c2_parse_token_invariants_witness :
    (parse "ab".data).countP (inRangeB 0) = 1
    ∧ (⟨"ab".data, 0, 2, .ident .nspaceK⟩ : Token).text
        = (("ab".data).take 2).drop 0 :=
  ⟨(c2_parse_token_invariants "ab".data).2.2.2.1 0 (by decide) (by decide),
   (c2_parse_token_invariants "ab".data).2.2.1
     ⟨"ab".data, 0, 2, .ident .nspaceK⟩ (by decide)⟩

/-- C3 counterexample: `highlight` drops trailing characters after the last
token, so stripping the styling from `highlight("a ")` yields `"a"`, not
`"a "`.  The claim "applying highlight to S and then stripping all styling
escape sequences yields exactly S" is false at `S = "a "`. -/
theorem c3_trailing_whitespace_counterexample :
    highlightUnstyled "a ".data ≠ "a ".data := by decide

/-- C3 (amended): stripping the styling from `highlight(S)` yields exactly
the prefix of `S` that ends at the final token's `end` offset (characters
before and between tokens are preserved; characters after the last token
are dropped); when `S` produces no tokens, `S` is returned unchanged. -/
theorem c3_highlight_strips_truncated :
    ∀ s : List Char,
      ((parse s).isEmpty = true → highlightUnstyled s = s)
      ∧ ∀ tl, (parse s).getLast? = some tl → highlightUnstyled s = s.take tl.tend := by
  intro s
  constructor
  · intro h
    simp [highlightUnstyled, h]
  · intro tl hlast
    obtain ⟨hpw, hmem⟩ := tok_facts (tokenizes_parse s)
    match hps : parse s with
    | [] =>
      rw [hps] at hlast
      simp at hlast
    | t0 :: ts =>
      rw [hps] at hlast hpw hmem
      unfold highlightUnstyled
      rw [hps]
      simp only [List.isEmpty_cons, if_false, Bool.false_eq_true]
      have h := hlGo_last s ts t0 0 tl hpw
        (fun t ht => ⟨(hmem t ht).2.1, by have := (hmem t ht).2.2.1; omega⟩)
        (Nat.zero_le _) hlast
      rw [h]
      simp

/-- Witness for C3 (amended) at the concrete input `"a "`. -/
theorem c3_highlight_strips_truncated_witness :
    highlightUnstyled "a ".data = ("a ".data).take 1 :=
  (c3_highlight_strips_truncated "a ".data).2
    ⟨"a".data, 0, 1, .ident .nspaceK⟩ (by decide)

/-- C4: `parse "std::vector<std::string>"` yields exactly the eight tokens
Namespace `std`, Punctuation `::`, Type `vector`, Punctuation `<`,
Namespace `std`, Punctuation `::`, Type `string`, Punctuation `>`. -/
theorem c4_parse_template_type :
    parse "std::vector<std::string>".data =
      [⟨"std".data, 0, 3, .ident .nspaceK⟩,
       ⟨"::".data, 3, 5, .punctK⟩,
       ⟨"vector".data, 5, 11, .ident .typeK⟩,
       ⟨"<".data, 11, 12, .punctK⟩,
       ⟨"std".data, 12, 15, .ident .nspaceK⟩,
       ⟨"::".data, 15, 17, .punctK⟩,
       ⟨"string".data, 17, 23, .ident .typeK⟩,
       ⟨">".data, 23, 24, .punctK⟩] := by decide

/-! ## Claim theorems for the decomposer and the remaining components -/

/-- When every operand of `e` evaluates, ordinary (short-circuiting)
evaluation agrees with eager evaluation. -/
lemma evalExpr_of_evalAllOperands :
    ∀ (e : Expr) (v : Val), evalAllOperands e = some v → evalExpr e = some v := by
  intro e
  induction e with
  | leaf v' => intro v h; exact h
  | node op l r ihl ihr =>
    intro v h
    simp only [evalAllOperands] at h
    cases hl : evalAllOperands l with
    | none => rw [hl] at h; simp at h
    | some vl =>
      cases hr : evalAllOperands r with
      | none => rw [hl, hr] at h; simp at h
      | some vr =>
        rw [hl, hr] at h
        have hl' := ihl vl hl
        have hr' := ihr vr hr
        cases op
        case landO =>
          rcases vl with n | a
          · simp [opApply] at h
          · rcases vr with m | b
            · simp [opApply] at h
            · simp only [opApply, Option.some.injEq] at h
              subst h
              simp only [evalExpr]
              rw [hl', hr']
              cases a <;> simp
        case lorO =>
          rcases vl with n | a
          · simp [opApply] at h
          · rcases vr with m | b
            · simp [opApply] at h
            · simp only [opApply, Option.some.injEq] at h
              subst h
              simp only [evalExpr]
              rw [hl', hr']
              cases a <;> simp
        all_goals (simp only [evalExpr]; rw [hl', hr']; exact h)

/-- C1 counterexample: the claim "the decomposition's evaluated result
equals the value E would have evaluated to without capture" fails for
`E = false && (1/0 == 1)`: without capture the built-in `&&`
short-circuits and `E` evaluates to `false`, but the capture chain hands
the right operand to the overloaded `operator&&` as an argument, so
`1/0` is evaluated (undefined behavior, modelled `none`). -/
theorem c1_short_circuit_counterexample :
    chainResult (.node .landO (.leaf (.boolV false))
        (.node .eqO (.node .div (.leaf (.intV 1)) (.leaf (.intV 0)))
          (.leaf (.intV 1))))
      ≠ evalExpr (.node .landO (.leaf (.boolV false))
        (.node .eqO (.node .div (.leaf (.intV 1)) (.leaf (.intV 0)))
          (.leaf (.intV 1)))) := by decide

/-- C1 (amended): whenever every operand subexpression of `E` evaluates
(no reliance on `&&`/`||` short-circuiting to skip an undefined operand),
the decomposition's evaluated result (`BinaryExpression::do_op`/`expr`)
equals the value `E` evaluates to without capture, with a nested
`BinaryExpression` on the left contributing its evaluated result to the
outer operator, preserving left-to-right evaluation order. -/
theorem c1_decomposition_preserves_value :
    ∀ (e : Expr) (v : Val), evalAllOperands e = some v →
      chainResult e = some v ∧ evalExpr e = some v := by
  intro e
  induction e with
  | leaf v' => intro v h; exact ⟨h, h⟩
  | node op l r ihl ihr =>
    intro v h
    refine ⟨?_, evalExpr_of_evalAllOperands _ v h⟩
    simp only [evalAllOperands] at h
    cases hl : evalAllOperands l with
    | none => rw [hl] at h; simp at h
    | some vl =>
      cases hr : evalAllOperands r with
      | none => rw [hl, hr] at h; simp at h
      | some vr =>
        rw [hl, hr] at h
        obtain ⟨hcl, -⟩ := ihl vl hl
        have hsr : evalExpr r = some vr := evalExpr_of_evalAllOperands r vr hr
        cases hd : decompose l with
        | none => rw [chainResult, hd] at hcl; simp at hcl
        | some cl =>
          rw [chainResult, hd] at hcl
          have hcl' : chainDoOp cl = some vl := hcl
          rw [chainResult, decompose, hd, hsr]
          simp only [chainDoOp]
          rw [hcl']
          exact h

/-- Witness for C1 (amended) at the concrete input `1 + 2`. -/
theorem c1_decomposition_preserves_value_witness :
    chainResult (.node .add (.leaf (.intV 1)) (.leaf (.intV 2))) = some (.intV 3)
    ∧ evalExpr (.node .add (.leaf (.intV 1)) (.leaf (.intV 2))) = some (.intV 3) :=
  c1_decomposition_preserves_value
    (.node .add (.leaf (.intV 1)) (.leaf (.intV 2))) (.intV 3) (by decide)

/-- C5 counterexample: the parser's fixed punctuation set does *not*
contain every element of the spec's list — `";"` is missing (the source
array has 48 entries) — and a lone `";"` word is emitted as a provisional
`Namespace` identifier token, not a `Punctuation` token. -/
theorem c5_semicolon_counterexample :
    ¬ (∀ p ∈ specPunctuationList, p ∈ punctuation)
    ∧ parse ";".data = [⟨";".data, 0, 1, .ident .nspaceK⟩] := by
  constructor
  · intro hall
    exact absurd (hall ";".data (by decide)) (by decide)
  · decide

/-- C5 (amended): the fixed punctuation set contains every element of the
spec's list except `";"`, which it does not contain. -/
theorem c5_punctuation_set_minus_semicolon :
    (∀ p ∈ specPunctuationList, p ≠ ";".data → p ∈ punctuation)
    ∧ ";".data ∉ punctuation := by
  exact ⟨by decide, by decide⟩

/-- Witness for C5 (amended) at the concrete element `"<=>"`. -/
theorem c5_punctuation_set_minus_semicolon_witness :
    "<=>".data ∈ punctuation :=
  c5_punctuation_set_minus_semicolon.1 "<=>".data (by decide) (by decide)

/-- C6 counterexample: comparisons do not go through signedness-correcting
primitives.  `Operator<"<">::do_op` applies the built-in `<`, so comparing
`std::int32_t(-1)` against `std::uint32_t(1)` converts `-1` to
`4294967295u` and yields `false`, although mathematically `-1 < 1`. -/
theorem c6_mixed_signedness_counterexample :
    lt_do_op_i32_u32 (-1) 1 = false ∧ ((-1 : Int) < 1) := by decide

/-- C6 (amended): the comparison operators apply the built-in operators
directly (no `less_than_compare`-style primitives exist in the repository),
so under the usual arithmetic conversions every negative `std::int32_t`
left operand compares as *not less than* any `std::uint32_t` right operand
whose value is below `2^31`. -/
theorem c6_mixed_signedness_wraps :
    ∀ (a : Int) (b : Nat), -(2 ^ 31) ≤ a → a < 0 → b % 4294967296 < 2 ^ 31 →
      lt_do_op_i32_u32 a b = false := by
  intro a b h1 h2 h3
  have hshift : (a + 4294967296) % (4294967296 : Int) = a % 4294967296 := by
    have h := Int.add_mul_emod_self_left (a := a) (b := (4294967296 : Int)) (c := 1)
    rw [mul_one] at h
    exact h
  have hsmall : (a + 4294967296) % (4294967296 : Int) = a + 4294967296 :=
    Int.emod_eq_of_lt (by omega) (by omega)
  have hmod : a % (4294967296 : Int) = a + 4294967296 := by
    rw [← hshift, hsmall]
  unfold lt_do_op_i32_u32 toU32
  rw [hmod]
  simp only [decide_eq_false_iff_not, not_lt]
  omega

/-- Witness for C6 (amended) at `a = -1`, `b = 1`. -/
theorem c6_mixed_signedness_wraps_witness :
    lt_do_op_i32_u32 (-1) 1 = false :=
  c6_mixed_signedness_wraps (-1) 1 (by decide) (by decide) (by decide)

/-- C7: when the renderer encounters an operand with neither a formatter
nor a stream serializer, it renders the literal substring
`(NotFormattable)` in place of that operand's value: the unary formatter
produces exactly that text, and the leaf binary formatter's output contains
it whenever either side is unformattable.  (The rendering functions are
total: no failure path exists.) -/
theorem c7_not_formattable_fallback :
    formatUnary .notFmtAble = notFormattableText
    ∧ ∀ (l r : Operand) (op : List Char),
        (l = .notFmtAble ∨ r = .notFmtAble) →
        containsSub notFormattableText (formatBinaryLeafRaw l r op) := by
  constructor
  · decide
  · intro l r op h
    rcases h with rfl | rfl
    · cases r with
      | fmtAble rs rr => exact ⟨[], _, rfl⟩
      | streamAble rr => exact ⟨[], _, rfl⟩
      | notFmtAble => exact ⟨[], _, rfl⟩
    · cases l with
      | fmtAble ls lr =>
        exact ⟨quoteIf ls lr ++ ' ' :: op ++ [' '], [],
          by simp [formatBinaryLeafRaw, List.append_assoc]⟩
      | streamAble lr =>
        exact ⟨lr ++ ' ' :: op ++ [' '], [],
          by simp [formatBinaryLeafRaw, List.append_assoc]⟩
      | notFmtAble =>
        exact ⟨notFormattableText ++ ' ' :: op ++ [' '], [],
          by simp [formatBinaryLeafRaw, List.append_assoc]⟩

/-- Witness for C7 at a concrete unformattable left operand. -/
theorem c7_not_formattable_fallback_witness :
    containsSub notFormattableText
      (formatBinaryLeafRaw .notFmtAble (.fmtAble false "2".data) "==".data) :=
  c7_not_formattable_fallback.2 .notFmtAble (.fmtAble false "2".data) "==".data
    (Or.inl rfl)

/-- C8 counterexample: `set_handler` stores its argument unconditionally
(panic.cpp lines 149–152 contain no null check), so installing the null
handler *does* change the stored state and `get_handler` then returns
null — contradicting "rejected; handler state is unchanged" and
"`get_handler` never returns null". -/
theorem c8_null_handler_counterexample :
    get_handler (set_handler none initialPanicState) = none
    ∧ set_handler none initialPanicState ≠ initialPanicState := by decide

/-- C8 (amended): `set_handler` stores the given handler unconditionally,
null included: after `set_handler h`, `get_handler` returns exactly `h`
(so a null install is not rejected); the initial handler is the non-null
default handler. -/
theorem c8_set_handler_unconditional :
    ∀ (h : Option Nat) (s : PanicState),
      get_handler (set_handler h s) = h
      ∧ get_handler initialPanicState = some defaultHandlerAddr :=
  fun _ _ => ⟨rfl, rfl⟩

/-- C9: the claim says the precondition label is exactly
`"Contract Violation:\nPre-condition"`, but the source (assert.h line 415)
passes `"Contract Violaton:\nPre-condition"` — the word `Violation` is
misspelled, while the postcondition label (line 495) is spelled correctly.
The surrounding code and documentation make the spec's spelling the clear
intent, so this is a slip in the code. -/
theorem c9_label_typo :
    preconditionAssertLabel ≠ "Contract Violation:\nPre-condition".data
    ∧ postconditionAssertLabel = "Contract Violation:\nPost-condition".data := by
  exact ⟨by decide, by decide⟩

/-- C10: `is_rgb_color()` returns the internal terminal flag, exactly like
`is_term_color()` — the opposite of its documented meaning: a `Color` built
from an `RgbColor` reports `is_rgb_color() = false` and one built from a
terminal enumerator reports `is_rgb_color() = true`, while `rgb_color()`
and `term_color()` test the flag correctly. -/
theorem c10_is_rgb_color_inverted :
    ∀ (c : Color) (r : RgbColor) (t : Nat),
      c.is_rgb_color = c.is_term_color
      ∧ (Color.fromRgb r).is_rgb_color = false
      ∧ (Color.fromTerm t).is_rgb_color = true
      ∧ (Color.fromRgb r).rgb_color = some r
      ∧ (Color.fromTerm t).rgb_color = none
      ∧ (Color.fromTerm t).term_color = some t
      ∧ (Color.fromRgb r).term_color = none :=
  fun _ _ _ => ⟨rfl, rfl, rfl, rfl, rfl, rfl, rfl⟩

end HyperionAssert
